import Mathlib

/-!
Verification of the strtools escape-aware splitting library.

The crate's public surface (`src/lib.rs`) exposes `split_non_escaped`,
`split_non_escaped_sanitize` and `split_n_times` together with the
`Sorted` delimiter-set abstraction.  The module files implementing them
(`split`, `util`) are not part of the provided sources, so the scanner,
the ordered delimiter set and the positional splitter are modelled here
from the specification's scan algorithm (spec §4.1-§4.3), operating on
`List Char` in place of `&str`.
-/

namespace Strtools

/-- Modelled from the spec: the error raised by Ordered Delimiter Set
construction when the input contains a repeated value after sorting
(the `util` module implementing `Sorted` is missing from the sources). -/
inductive SortedError where
  | DuplicateDelimiter
deriving DecidableEq

/-- Modelled from the spec: the error raised by scanner construction when the
escape token is a member of the delimiter set (`split::NonEscapedError` in the
missing `split` module). -/
inductive NonEscapedError where
  | EscapeEqualsDelimiter
deriving DecidableEq

/-- Does a list contain two equal adjacent elements? -/
def hasAdjDup : List Char → Bool
  | [] => false
  | [_] => false
  | a :: b :: t => a == b || hasAdjDup (b :: t)

/-- Modelled from the spec: Ordered Delimiter Set construction from a
multi-element input -- sort ascending, fail with `DuplicateDelimiter` when two
adjacent elements of the sorted result compare equal. -/
def sortedBuild (l : List Char) : Except SortedError (List Char) :=
  let s := l.mergeSort (fun a b => decide (a ≤ b))
  if hasAdjDup s then .error .DuplicateDelimiter else .ok s

/-- Modelled from the spec: Ordered Delimiter Set construction from a single
token, which always succeeds with the one-element set. -/
def sortedOfChar (c : Char) : List Char := [c]

/-- A segment produced by the sanitized policy: its character content plus
whether the scanner had to allocate an owned buffer for it (`owned = true`
exactly when an escape-before-significant-character event occurred inside the
segment; `owned = false` models the borrowed zero-allocation fast path). -/
structure Seg where
  content : List Char
  owned : Bool
deriving DecidableEq

/-- Modelled from the spec: the shared scan loop under the raw policy
(`split::non_escaped`).  Scans with a pending-escape flag and returns the
current segment, the later segments, and the delimiter characters consumed at
each split point, in order.  A pending escape is emitted together with the
character it suppresses (or alone at end-of-input), which keeps every scanned
character in the output verbatim. -/
def scanRaw (esc : Char) (delims : List Char) : List Char → Bool →
    List Char × List (List Char) × List Char
  | [], pending => (if pending then [esc] else [], [], [])
  | c :: rest, pending =>
    if pending then
      let r := scanRaw esc delims rest false
      (esc :: c :: r.1, r.2.1, r.2.2)
    else if c = esc then
      scanRaw esc delims rest true
    else if delims.contains c then
      let r := scanRaw esc delims rest false
      ([], r.1 :: r.2.1, c :: r.2.2)
    else
      let r := scanRaw esc delims rest false
      (c :: r.1, r.2.1, r.2.2)

/-- All raw-policy segments of a source, in order. -/
def rawSegs (esc : Char) (delims : List Char) (s : List Char) : List (List Char) :=
  (scanRaw esc delims s false).1 :: (scanRaw esc delims s false).2.1

/-- The delimiter characters consumed by the raw scan, in order. -/
def rawDelims (esc : Char) (delims : List Char) (s : List Char) : List Char :=
  (scanRaw esc delims s false).2.2

/-- Modelled from the spec: the shared scan loop under the sanitized policy
(`split::non_escaped_sanitize`).  Identical segmentation; an escape token
immediately followed by a significant character (a delimiter or another
escape) is dropped and the segment marked owned, any other escape is kept
verbatim, including a trailing unmatched escape at end-of-input. -/
def scanSan (esc : Char) (delims : List Char) : List Char → Bool →
    (List Char × Bool) × List Seg × List Char
  | [], pending => ((if pending then [esc] else [], false), [], [])
  | c :: rest, pending =>
    if pending then
      let r := scanSan esc delims rest false
      if c = esc ∨ delims.contains c then ((c :: r.1.1, true), r.2.1, r.2.2)
      else ((esc :: c :: r.1.1, r.1.2), r.2.1, r.2.2)
    else if c = esc then
      scanSan esc delims rest true
    else if delims.contains c then
      let r := scanSan esc delims rest false
      (([], false), ⟨r.1.1, r.1.2⟩ :: r.2.1, c :: r.2.2)
    else
      let r := scanSan esc delims rest false
      ((c :: r.1.1, r.1.2), r.2.1, r.2.2)

/-- All sanitized-policy segments of a source, in order. -/
def sanSegs (esc : Char) (delims : List Char) (s : List Char) : List Seg :=
  ⟨(scanSan esc delims s false).1.1, (scanSan esc delims s false).1.2⟩ ::
    (scanSan esc delims s false).2.1

/-- Modelled from the spec: construction plus iteration of the raw-policy
scanner.  Construction fails immediately with `EscapeEqualsDelimiter` when the
escape is a member of the delimiter set; otherwise all segments are produced. -/
def non_escaped (s : List Char) (esc : Char) (delims : List Char) :
    Except NonEscapedError (List (List Char)) :=
  if delims.contains esc then .error .EscapeEqualsDelimiter
  else .ok (rawSegs esc delims s)

/-- Modelled from the spec: construction plus iteration of the sanitized-policy
scanner.  Construction fails immediately with `EscapeEqualsDelimiter` when the
escape is a member of the delimiter set; otherwise all segments are produced. -/
def non_escaped_sanitize (s : List Char) (esc : Char) (delims : List Char) :
    Except NonEscapedError (List Seg) :=
  if delims.contains esc then .error .EscapeEqualsDelimiter
  else .ok (sanSegs esc delims s)

/-- Removal of the escape tokens that immediately precede a significant
character, applied to one raw segment; escapes before non-significant
characters and a trailing escape are kept.  Used to state how the sanitized
segments relate to the raw ones. -/
def stripEsc (esc : Char) (delims : List Char) : List Char → List Char
  | [] => []
  | c :: rest =>
    if c = esc then
      match rest with
      | [] => [esc]
      | d :: rest' =>
        if d = esc ∨ delims.contains d then d :: stripEsc esc delims rest'
        else esc :: d :: stripEsc esc delims rest'
    else c :: stripEsc esc delims rest

/-- Interleave segments with the delimiters removed at each split point:
`seg0 ++ [d0] ++ seg1 ++ [d1] ++ ... ++ segk`. -/
def interleave : List (List Char) → List Char → List Char
  | [], _ => []
  | s :: _, [] => s
  | s :: ss, d :: ds => s ++ d :: interleave ss ds

/-- Modelled from the spec: the recursion of the fixed-arity positional
splitter, cutting the source at the given offsets; `prev` is the offset at
which the current piece starts. -/
def splitAtOffsets (s : List Char) : Nat → List Nat → List (List Char)
  | prev, [] => [s.drop prev]
  | prev, i :: rest => (s.drop prev).take (i - prev) :: splitAtOffsets s i rest

/-- Modelled from the spec: the fixed-arity positional splitter
(`split::n_times`).  Cuts the source at the given ascending byte offsets into
N+1 pieces; signals an out-of-bounds condition (`none`, `IndexOutOfBounds`)
when the last offset exceeds the source length. -/
def split_n_times (s : List Char) (idx : List Nat) : Option (List (List Char)) :=
  match idx.getLast? with
  | none => some (splitAtOffsets s 0 idx)
  | some last =>
    if last ≤ s.length then some (splitAtOffsets s 0 idx) else none

/-! ### Helper lemmas -/

theorem interleave_cons (x : Char) (h : List Char) (t : List (List Char)) (ds : List Char) :
    interleave ((x :: h) :: t) ds = x :: interleave (h :: t) ds := by
  cases ds <;> simp [interleave]

theorem scanRaw_reconstruct (esc : Char) (delims : List Char) (s : List Char) :
    ∀ p, interleave ((scanRaw esc delims s p).1 :: (scanRaw esc delims s p).2.1)
      (scanRaw esc delims s p).2.2 = if p then esc :: s else s := by
  induction s with
  | nil => intro p; cases p <;> simp [scanRaw, interleave]
  | cons c rest ih =>
    intro p
    cases p with
    | true =>
      simp only [scanRaw, if_true, interleave_cons]
      rw [ih false]
      simp
    | false =>
      by_cases hesc : c = esc
      · have h1 : scanRaw esc delims (c :: rest) false = scanRaw esc delims rest true := by
          simp [scanRaw, hesc]
        rw [h1]
        rw [hesc]
        simpa using ih true
      · by_cases hdel : c ∈ delims
        · have h1 : scanRaw esc delims (c :: rest) false =
              ([], (scanRaw esc delims rest false).1 :: (scanRaw esc delims rest false).2.1,
                c :: (scanRaw esc delims rest false).2.2) := by
            simp [scanRaw, hesc, hdel]
          rw [h1]
          simp only [interleave, List.nil_append]
          simpa using ih false
        · have h1 : scanRaw esc delims (c :: rest) false =
              (c :: (scanRaw esc delims rest false).1, (scanRaw esc delims rest false).2.1,
                (scanRaw esc delims rest false).2.2) := by
            simp [scanRaw, hesc, hdel]
          rw [h1]
          rw [interleave_cons]
          simpa using ih false

/-! ### Claim theorems -/

/-- C1: for the source `Pa\rt0:Part1:Part2\:StillPart2` with escape `\` and
delimiter `:`, the raw policy yields `[Pa\rt0, Part1, Part2\:StillPart2]` and
the sanitized policy yields `[Pa\rt0, Part1, Part2:StillPart2]`, in order. -/
theorem scenarioA_raw_and_sanitized :
    non_escaped "Pa\\rt0:Part1:Part2\\:StillPart2".data '\\' [':'] =
      .ok ["Pa\\rt0".data, "Part1".data, "Part2\\:StillPart2".data] ∧
    non_escaped_sanitize "Pa\\rt0:Part1:Part2\\:StillPart2".data '\\' [':'] =
      .ok [⟨"Pa\\rt0".data, false⟩, ⟨"Part1".data, false⟩,
        ⟨"Part2:StillPart2".data, true⟩] :=
  ⟨rfl, rfl⟩

/-- C6: for the source `this string\ is split by\ spaces and commas, unless
they are\ escaped` with escape `\` and delimiters space and comma, the
sanitized policy yields exactly the ten documented segments, including the
empty segment between the consecutive delimiters `,` and space. -/
theorem scenarioB_sanitized :
    non_escaped_sanitize
        "this string\\ is split by\\ spaces and commas, unless they are\\ escaped".data
        '\\' [' ', ','] =
      .ok [⟨"this".data, false⟩, ⟨"string is".data, true⟩, ⟨"split".data, false⟩,
        ⟨"by spaces".data, true⟩, ⟨"and".data, false⟩, ⟨"commas".data, false⟩,
        ⟨"".data, false⟩, ⟨"unless".data, false⟩, ⟨"they".data, false⟩,
        ⟨"are escaped".data, true⟩] :=
  rfl

/-- C10: for the source `\.\/.*s(\d\d)e(\d\d[a-d])/S$1E$2/gu` with escape `\`
and delimiter `/`, the sanitized policy yields exactly three segments: the
escape before the ordinary characters `.` and `d` is kept verbatim, while the
escape before the delimiter `/` is removed and the delimiter retained. -/
theorem scenarioC_regex_rule :
    non_escaped_sanitize "\\.\\/.*s(\\d\\d)e(\\d\\d[a-d])/S$1E$2/gu".data '\\' ['/'] =
      .ok [⟨"\\./.*s(\\d\\d)e(\\d\\d[a-d])".data, true⟩, ⟨"S$1E$2".data, false⟩,
        ⟨"gu".data, false⟩] :=
  rfl

/-- C3: construction of either scanner fails immediately with
`EscapeEqualsDelimiter` exactly when the escape token is a member of the
delimiter set, and succeeds (producing the segment list) when they are
disjoint. -/
theorem construction_error_iff (s : List Char) (esc : Char) (delims : List Char) :
    (non_escaped s esc delims = .error .EscapeEqualsDelimiter ↔ esc ∈ delims) ∧
    (non_escaped_sanitize s esc delims = .error .EscapeEqualsDelimiter ↔ esc ∈ delims) ∧
    (esc ∉ delims →
      non_escaped s esc delims = .ok (rawSegs esc delims s) ∧
      non_escaped_sanitize s esc delims = .ok (sanSegs esc delims s)) := by
  have hc : delims.contains esc = true ↔ esc ∈ delims := by simp [List.contains]
  unfold non_escaped non_escaped_sanitize
  by_cases h : esc ∈ delims
  · rw [if_pos (hc.mpr h), if_pos (hc.mpr h)]
    exact ⟨⟨fun _ => h, fun _ => rfl⟩, ⟨fun _ => h, fun _ => rfl⟩, fun hn => absurd h hn⟩
  · rw [if_neg (fun hcc => h (hc.mp hcc)), if_neg (fun hcc => h (hc.mp hcc))]
    exact ⟨⟨fun he => Except.noConfusion he, fun hm => absurd hm h⟩,
      ⟨fun he => Except.noConfusion he, fun hm => absurd hm h⟩, fun _ => ⟨rfl, rfl⟩⟩

/-- Witness for C3 at a concrete input. -/
theorem construction_error_iff_witness :
    ('\\' ∉ [':']) ∧
    non_escaped "a:b".data '\\' [':'] = .ok (rawSegs '\\' [':'] "a:b".data) ∧
    non_escaped_sanitize "a:b".data '\\' [':'] = .ok (sanSegs '\\' [':'] "a:b".data) :=
  ⟨by decide, (construction_error_iff "a:b".data '\\' [':']).2.2 (by decide)⟩

/-- C4: for every accepted input, concatenating the raw-policy segments
interleaved with the delimiter characters that caused each split, in the order
they were consumed, reconstructs the source exactly. -/
theorem raw_reconstructs_source (s : List Char) (esc : Char) (delims : List Char)
    (segs : List (List Char)) (h : non_escaped s esc delims = .ok segs) :
    interleave segs (rawDelims esc delims s) = s := by
  unfold non_escaped at h
  by_cases hc : delims.contains esc
  · rw [if_pos hc] at h; cases h
  · rw [if_neg hc] at h
    cases h
    have := scanRaw_reconstruct esc delims s false
    simpa [rawSegs, rawDelims] using this

/-- Witness for C4 at a concrete input. -/
theorem raw_reconstructs_source_witness :
    interleave ["Pa\\rt0".data, "Part1".data, "Part2\\:StillPart2".data]
        (rawDelims '\\' [':'] "Pa\\rt0:Part1:Part2\\:StillPart2".data) =
      "Pa\\rt0:Part1:Part2\\:StillPart2".data :=
  raw_reconstructs_source "Pa\\rt0:Part1:Part2\\:StillPart2".data '\\' [':']
    ["Pa\\rt0".data, "Part1".data, "Part2\\:StillPart2".data] rfl

theorem stripEsc_nil (esc : Char) (delims : List Char) : stripEsc esc delims [] = [] := rfl

theorem stripEsc_single (esc : Char) (delims : List Char) :
    stripEsc esc delims [esc] = [esc] := by
  conv_lhs => rw [stripEsc.eq_def]
  simp

theorem stripEsc_cons_ord (esc c : Char) (delims : List Char) (X : List Char)
    (hesc : ¬ c = esc) : stripEsc esc delims (c :: X) = c :: stripEsc esc delims X := by
  conv_lhs => rw [stripEsc.eq_def]
  simp [hesc]

theorem stripEsc_esc_sig (esc c : Char) (delims : List Char) (X : List Char)
    (hsig : c = esc ∨ c ∈ delims) :
    stripEsc esc delims (esc :: c :: X) = c :: stripEsc esc delims X := by
  conv_lhs => rw [stripEsc.eq_def]
  simp [hsig]

theorem stripEsc_esc_ord (esc c : Char) (delims : List Char) (X : List Char)
    (hsig : ¬ (c = esc ∨ c ∈ delims)) :
    stripEsc esc delims (esc :: c :: X) = esc :: c :: stripEsc esc delims X := by
  conv_lhs => rw [stripEsc.eq_def]
  simp [hsig]

theorem scanSan_stripEsc (esc : Char) (delims : List Char) (s : List Char) :
    ∀ p, (scanSan esc delims s p).1.1 = stripEsc esc delims (scanRaw esc delims s p).1 ∧
      (scanSan esc delims s p).2.1.map Seg.content =
        (scanRaw esc delims s p).2.1.map (stripEsc esc delims) ∧
      (scanSan esc delims s p).2.2 = (scanRaw esc delims s p).2.2 := by
  induction s with
  | nil => intro p; cases p <;> simp [scanSan, scanRaw, stripEsc]
  | cons c rest ih =>
    intro p
    cases p with
    | true =>
      by_cases hsig : c = esc ∨ c ∈ delims
      · have h1 : scanSan esc delims (c :: rest) true =
            ((c :: (scanSan esc delims rest false).1.1, true),
              (scanSan esc delims rest false).2.1, (scanSan esc delims rest false).2.2) := by
          simp [scanSan, hsig]
        have h2 : scanRaw esc delims (c :: rest) true =
            (esc :: c :: (scanRaw esc delims rest false).1,
              (scanRaw esc delims rest false).2.1, (scanRaw esc delims rest false).2.2) := by
          simp [scanRaw]
        rw [h1, h2]
        have h3 : stripEsc esc delims (esc :: c :: (scanRaw esc delims rest false).1) =
            c :: stripEsc esc delims (scanRaw esc delims rest false).1 := by
          simp [stripEsc, hsig]
        rw [h3]
        exact ⟨by rw [(ih false).1], (ih false).2.1, (ih false).2.2⟩
      · have h1 : scanSan esc delims (c :: rest) true =
            ((esc :: c :: (scanSan esc delims rest false).1.1,
                (scanSan esc delims rest false).1.2),
              (scanSan esc delims rest false).2.1, (scanSan esc delims rest false).2.2) := by
          simp [scanSan, hsig]
        have h2 : scanRaw esc delims (c :: rest) true =
            (esc :: c :: (scanRaw esc delims rest false).1,
              (scanRaw esc delims rest false).2.1, (scanRaw esc delims rest false).2.2) := by
          simp [scanRaw]
        rw [h1, h2]
        have h3 : stripEsc esc delims (esc :: c :: (scanRaw esc delims rest false).1) =
            esc :: c :: stripEsc esc delims (scanRaw esc delims rest false).1 := by
          simp [stripEsc, hsig]
        rw [h3]
        exact ⟨by rw [(ih false).1], (ih false).2.1, (ih false).2.2⟩
    | false =>
      by_cases hesc : c = esc
      · have h1 : scanSan esc delims (c :: rest) false = scanSan esc delims rest true := by
          simp [scanSan, hesc]
        have h2 : scanRaw esc delims (c :: rest) false = scanRaw esc delims rest true := by
          simp [scanRaw, hesc]
        rw [h1, h2]
        exact ih true
      · by_cases hdel : c ∈ delims
        · have h1 : scanSan esc delims (c :: rest) false =
              (([], false),
                (⟨(scanSan esc delims rest false).1.1, (scanSan esc delims rest false).1.2⟩ :
                    Seg) :: (scanSan esc delims rest false).2.1,
                c :: (scanSan esc delims rest false).2.2) := by
            simp [scanSan, hesc, hdel]
          have h2 : scanRaw esc delims (c :: rest) false =
              ([], (scanRaw esc delims rest false).1 :: (scanRaw esc delims rest false).2.1,
                c :: (scanRaw esc delims rest false).2.2) := by
            simp [scanRaw, hesc, hdel]
          rw [h1, h2]
          refine ⟨by simp [stripEsc], ?_, ?_⟩
          · simp only [List.map_cons]
            rw [(ih false).1, (ih false).2.1]
          · simp only []
            rw [(ih false).2.2]
        · have h1 : scanSan esc delims (c :: rest) false =
              ((c :: (scanSan esc delims rest false).1.1, (scanSan esc delims rest false).1.2),
                (scanSan esc delims rest false).2.1, (scanSan esc delims rest false).2.2) := by
            simp [scanSan, hesc, hdel]
          have h2 : scanRaw esc delims (c :: rest) false =
              (c :: (scanRaw esc delims rest false).1, (scanRaw esc delims rest false).2.1,
                (scanRaw esc delims rest false).2.2) := by
            simp [scanRaw, hesc, hdel]
          rw [h1, h2]
          have h3 := stripEsc_cons_ord esc c delims (scanRaw esc delims rest false).1 hesc
          rw [h3]
          exact ⟨by rw [(ih false).1], (ih false).2.1, (ih false).2.2⟩

/-- C2: for every accepted input, the sanitized segments are exactly the raw
segments with each escape token that immediately preceded a significant
character (a delimiter or another escape it suppressed) removed, and every
other occurrence of the escape token -- including a trailing unmatched escape
at end-of-input, which `stripEsc` maps to itself -- preserved verbatim; a
source consisting of a single trailing escape is preserved whole under both
policies. -/
theorem sanitize_strips_exactly_escape_pairs (s : List Char) (esc : Char)
    (delims : List Char) (segs : List Seg) (rsegs : List (List Char))
    (hs : non_escaped_sanitize s esc delims = .ok segs)
    (hr : non_escaped s esc delims = .ok rsegs) :
    segs.map Seg.content = rsegs.map (stripEsc esc delims) ∧
    sanSegs esc delims [esc] = [⟨[esc], false⟩] ∧
    rawSegs esc delims [esc] = [[esc]] := by
  unfold non_escaped_sanitize at hs
  unfold non_escaped at hr
  by_cases hc : delims.contains esc
  · rw [if_pos hc] at hs; cases hs
  · rw [if_neg hc] at hs; rw [if_neg hc] at hr
    cases hs; cases hr
    refine ⟨?_, ?_, ?_⟩
    · have h := scanSan_stripEsc esc delims s false
      simp only [sanSegs, rawSegs, List.map_cons]
      rw [h.1, h.2.1]
    · simp [sanSegs, scanSan]
    · simp [rawSegs, scanRaw]

/-- Witness for C2 at a concrete input. -/
theorem sanitize_strips_exactly_escape_pairs_witness :
    ([⟨"Pa\\rt0".data, false⟩, ⟨"Part1".data, false⟩,
        (⟨"Part2:StillPart2".data, true⟩ : Seg)].map Seg.content =
      ["Pa\\rt0".data, "Part1".data, "Part2\\:StillPart2".data].map (stripEsc '\\' [':'])) ∧
    sanSegs '\\' [':'] ['\\'] = [⟨['\\'], false⟩] ∧
    rawSegs '\\' [':'] ['\\'] = [['\\']] :=
  sanitize_strips_exactly_escape_pairs "Pa\\rt0:Part1:Part2\\:StillPart2".data '\\' [':']
    [⟨"Pa\\rt0".data, false⟩, ⟨"Part1".data, false⟩, ⟨"Part2:StillPart2".data, true⟩]
    ["Pa\\rt0".data, "Part1".data, "Part2\\:StillPart2".data] rfl rfl

theorem scanSan_borrowed (esc : Char) (delims : List Char) (s : List Char) :
    ∀ p, ((scanSan esc delims s p).1.2 = false →
        (scanSan esc delims s p).1.1 = (scanRaw esc delims s p).1) ∧
      List.Forall₂ (fun sg r => sg.owned = false → sg.content = r)
        (scanSan esc delims s p).2.1 (scanRaw esc delims s p).2.1 := by
  induction s with
  | nil => intro p; cases p <;> simp [scanSan, scanRaw]
  | cons c rest ih =>
    intro p
    cases p with
    | true =>
      by_cases hsig : c = esc ∨ c ∈ delims
      · have h1 : scanSan esc delims (c :: rest) true =
            ((c :: (scanSan esc delims rest false).1.1, true),
              (scanSan esc delims rest false).2.1, (scanSan esc delims rest false).2.2) := by
          simp [scanSan, hsig]
        rw [h1]
        exact ⟨fun hfalse => Bool.noConfusion hfalse, (ih false).2⟩
      · have h1 : scanSan esc delims (c :: rest) true =
            ((esc :: c :: (scanSan esc delims rest false).1.1,
                (scanSan esc delims rest false).1.2),
              (scanSan esc delims rest false).2.1, (scanSan esc delims rest false).2.2) := by
          simp [scanSan, hsig]
        have h2 : scanRaw esc delims (c :: rest) true =
            (esc :: c :: (scanRaw esc delims rest false).1,
              (scanRaw esc delims rest false).2.1, (scanRaw esc delims rest false).2.2) := by
          simp [scanRaw]
        rw [h1, h2]
        exact ⟨fun ho => by rw [(ih false).1 ho], (ih false).2⟩
    | false =>
      by_cases hesc : c = esc
      · have h1 : scanSan esc delims (c :: rest) false = scanSan esc delims rest true := by
          simp [scanSan, hesc]
        have h2 : scanRaw esc delims (c :: rest) false = scanRaw esc delims rest true := by
          simp [scanRaw, hesc]
        rw [h1, h2]
        exact ih true
      · by_cases hdel : c ∈ delims
        · have h1 : scanSan esc delims (c :: rest) false =
              (([], false),
                (⟨(scanSan esc delims rest false).1.1, (scanSan esc delims rest false).1.2⟩ :
                    Seg) :: (scanSan esc delims rest false).2.1,
                c :: (scanSan esc delims rest false).2.2) := by
            simp [scanSan, hesc, hdel]
          have h2 : scanRaw esc delims (c :: rest) false =
              ([], (scanRaw esc delims rest false).1 :: (scanRaw esc delims rest false).2.1,
                c :: (scanRaw esc delims rest false).2.2) := by
            simp [scanRaw, hesc, hdel]
          rw [h1, h2]
          exact ⟨fun _ => rfl, List.Forall₂.cons (fun ho => (ih false).1 ho) (ih false).2⟩
        · have h1 : scanSan esc delims (c :: rest) false =
              ((c :: (scanSan esc delims rest false).1.1, (scanSan esc delims rest false).1.2),
                (scanSan esc delims rest false).2.1, (scanSan esc delims rest false).2.2) := by
            simp [scanSan, hesc, hdel]
          have h2 : scanRaw esc delims (c :: rest) false =
              (c :: (scanRaw esc delims rest false).1, (scanRaw esc delims rest false).2.1,
                (scanRaw esc delims rest false).2.2) := by
            simp [scanRaw, hesc, hdel]
          rw [h1, h2]
          exact ⟨fun ho => by rw [(ih false).1 ho], (ih false).2⟩

/-- C5: for every accepted input, positionwise, every sanitized segment that
the scanner did not mark owned (no escape-before-significant-character event
occurred in it, the zero-allocation borrowed fast path) has exactly the
content of the raw-policy segment at the same position. -/
theorem sanitize_borrows_match_raw (s : List Char) (esc : Char) (delims : List Char)
    (segs : List Seg) (rsegs : List (List Char))
    (hs : non_escaped_sanitize s esc delims = .ok segs)
    (hr : non_escaped s esc delims = .ok rsegs) :
    List.Forall₂ (fun sg r => sg.owned = false → sg.content = r) segs rsegs := by
  unfold non_escaped_sanitize at hs
  unfold non_escaped at hr
  by_cases hc : delims.contains esc
  · rw [if_pos hc] at hs; cases hs
  · rw [if_neg hc] at hs; rw [if_neg hc] at hr
    cases hs; cases hr
    have h := scanSan_borrowed esc delims s false
    exact List.Forall₂.cons (fun ho => h.1 ho) h.2

/-- Witness for C5 at a concrete input. -/
theorem sanitize_borrows_match_raw_witness :
    List.Forall₂ (fun (sg : Seg) r => sg.owned = false → sg.content = r)
      [⟨"Pa\\rt0".data, false⟩, ⟨"Part1".data, false⟩, ⟨"Part2:StillPart2".data, true⟩]
      ["Pa\\rt0".data, "Part1".data, "Part2\\:StillPart2".data] :=
  sanitize_borrows_match_raw "Pa\\rt0:Part1:Part2\\:StillPart2".data '\\' [':']
    [⟨"Pa\\rt0".data, false⟩, ⟨"Part1".data, false⟩, ⟨"Part2:StillPart2".data, true⟩]
    ["Pa\\rt0".data, "Part1".data, "Part2\\:StillPart2".data] rfl rfl

theorem scan_no_special (esc : Char) (delims : List Char) :
    ∀ s : List Char, (∀ c ∈ s, c ≠ esc ∧ c ∉ delims) →
      scanRaw esc delims s false = (s, [], []) ∧
      scanSan esc delims s false = ((s, false), [], []) := by
  intro s
  induction s with
  | nil => intro _; exact ⟨rfl, rfl⟩
  | cons c rest ih =>
    intro hno
    obtain ⟨hesc, hdel⟩ := hno c (by simp)
    have hrest := ih (fun x hx => hno x (by simp [hx]))
    constructor
    · have h2 : scanRaw esc delims (c :: rest) false =
          (c :: (scanRaw esc delims rest false).1, (scanRaw esc delims rest false).2.1,
            (scanRaw esc delims rest false).2.2) := by
        simp [scanRaw, hesc, hdel]
      rw [h2, hrest.1]
    · have h1 : scanSan esc delims (c :: rest) false =
          ((c :: (scanSan esc delims rest false).1.1, (scanSan esc delims rest false).1.2),
            (scanSan esc delims rest false).2.1, (scanSan esc delims rest false).2.2) := by
        simp [scanSan, hesc, hdel]
      rw [h1, hrest.2]

/-- C7: a source containing no occurrence of the escape token and no
occurrence of any delimiter yields exactly one segment equal to the whole
input under both policies, borrowed (not owned) under the sanitized one; the
empty source is the instance yielding exactly one empty segment. -/
theorem no_special_single_segment (s : List Char) (esc : Char) (delims : List Char)
    (hacc : esc ∉ delims) (hno : ∀ c ∈ s, c ≠ esc ∧ c ∉ delims) :
    non_escaped s esc delims = .ok [s] ∧
    non_escaped_sanitize s esc delims = .ok [⟨s, false⟩] := by
  have hc : ¬ delims.contains esc = true := by
    simp only [List.contains, List.elem_eq_mem, decide_eq_true_eq]
    exact hacc
  have h := scan_no_special esc delims s hno
  unfold non_escaped non_escaped_sanitize
  rw [if_neg hc, if_neg hc]
  constructor
  · simp only [rawSegs, h.1]
  · simp only [sanSegs, h.2]

/-- Witness for C7: the empty source and a source with no special characters. -/
theorem no_special_single_segment_witness :
    (non_escaped [] '\\' [':'] = .ok [[]] ∧
      non_escaped_sanitize [] '\\' [':'] = .ok [⟨[], false⟩]) ∧
    (non_escaped "abc".data '\\' [':'] = .ok ["abc".data] ∧
      non_escaped_sanitize "abc".data '\\' [':'] = .ok [⟨"abc".data, false⟩]) :=
  ⟨no_special_single_segment [] '\\' [':'] (by decide) (by intro c hc; cases hc),
    no_special_single_segment "abc".data '\\' [':'] (by decide) (by decide)⟩

theorem nodup_of_sorted_not_adjdup :
    ∀ s : List Char, List.Sorted (· ≤ ·) s → hasAdjDup s = false → s.Nodup
  | [] => fun _ _ => List.nodup_nil
  | [a] => fun _ _ => by simp
  | a :: b :: t => fun hsort hdup => by
    simp only [hasAdjDup, Bool.or_eq_false_iff, beq_eq_false_iff_ne, ne_eq] at hdup
    obtain ⟨hab, hdup'⟩ := hdup
    have hsort' : List.Sorted (· ≤ ·) (b :: t) := (List.sorted_cons.mp hsort).2
    have ihn := nodup_of_sorted_not_adjdup (b :: t) hsort' hdup'
    rw [List.nodup_cons]
    refine ⟨?_, ihn⟩
    intro hmem
    rcases List.mem_cons.mp hmem with h | h
    · exact hab h
    · have h1 : a ≤ b := (List.sorted_cons.mp hsort).1 b (by simp)
      have h2 : b ≤ a := (List.sorted_cons.mp hsort').1 a h
      exact hab (le_antisymm h1 h2)

/-- C8: Ordered Delimiter Set construction from an input containing a repeated
token fails with `DuplicateDelimiter` (the sorted result has an equal adjacent
pair), while construction from a single token always succeeds with the
one-element set. -/
theorem sorted_construction (l : List Char) (c : Char) (hl : ¬ l.Nodup) :
    sortedBuild l = .error .DuplicateDelimiter ∧
    sortedBuild [c] = .ok [c] ∧ sortedOfChar c = [c] := by
  refine ⟨?_, ?_, rfl⟩
  · unfold sortedBuild
    by_cases hd : hasAdjDup (l.mergeSort (fun a b => decide (a ≤ b)))
    · simp only [hd, if_true]
    · exfalso
      have hperm := List.mergeSort_perm l (fun a b => decide (a ≤ b))
      have hsorted : List.Sorted (· ≤ ·) (l.mergeSort (fun a b => decide (a ≤ b))) :=
        List.sorted_mergeSort' l
      have hnodup := nodup_of_sorted_not_adjdup _ hsorted (by simpa using hd)
      exact hl (hperm.nodup hnodup)
  · unfold sortedBuild
    rw [List.mergeSort_singleton]
    rfl

/-- Witness for C8 at a concrete input. -/
theorem sorted_construction_witness :
    sortedBuild ['b', 'a', 'b'] = .error .DuplicateDelimiter ∧
    sortedBuild ['a'] = .ok ['a'] ∧ sortedOfChar 'a' = ['a'] :=
  sorted_construction ['b', 'a', 'b'] 'a' (by decide)

theorem splitAtOffsets_length (s : List Char) :
    ∀ (idx : List Nat) (prev : Nat), (splitAtOffsets s prev idx).length = idx.length + 1 := by
  intro idx
  induction idx with
  | nil => intro prev; rfl
  | cons i rest ih => intro prev; simp [splitAtOffsets, ih]

theorem splitAtOffsets_flatten (s : List Char) :
    ∀ (idx : List Nat) (prev : Nat), List.Chain' (· ≤ ·) (prev :: idx) →
      (splitAtOffsets s prev idx).flatten = s.drop prev := by
  intro idx
  induction idx with
  | nil => intro prev _; simp [splitAtOffsets]
  | cons i rest ih =>
    intro prev hch
    have hpi : prev ≤ i := (List.chain'_cons.mp hch).1
    have hch' : List.Chain' (· ≤ ·) (i :: rest) := (List.chain'_cons.mp hch).2
    simp only [splitAtOffsets, List.flatten_cons]
    rw [ih i hch']
    have hd : s.drop i = (s.drop prev).drop (i - prev) := by
      rw [List.drop_drop]
      congr 1
      omega
    rw [hd, List.take_append_drop]

theorem take_drop_chunk (s : List Char) (prev i k : Nat) (h1 : prev ≤ i) (h2 : i ≤ k) :
    (s.drop prev).take (i - prev) ++ (s.take k).drop i = (s.take k).drop prev := by
  conv_rhs => rw [← List.take_append_drop (i - prev) ((s.take k).drop prev)]
  congr 1
  · rw [List.drop_take, List.take_take]
    have hm : min (i - prev) (k - prev) = i - prev := by omega
    rw [hm]
  · rw [List.drop_drop]
    congr 1
    omega

theorem splitAtOffsets_take_flatten (s : List Char) :
    ∀ (idx : List Nat) (prev : Nat) (j : Nat) (hj : j < idx.length),
      List.Chain' (· ≤ ·) (prev :: idx) →
      ((splitAtOffsets s prev idx).take (j + 1)).flatten = (s.take (idx.get ⟨j, hj⟩)).drop prev := by
  intro idx
  induction idx with
  | nil => intro prev j hj; exact absurd hj (by simp)
  | cons i rest ih =>
    intro prev j hj hch
    have hpi : prev ≤ i := (List.chain'_cons.mp hch).1
    have hch' : List.Chain' (· ≤ ·) (i :: rest) := (List.chain'_cons.mp hch).2
    cases j with
    | zero =>
      simp only [splitAtOffsets, List.take_succ_cons, List.take_zero, List.flatten_cons,
        List.flatten_nil, List.append_nil, List.get]
      rw [List.drop_take]
    | succ j' =>
      have hj' : j' < rest.length := by simpa using hj
      simp only [splitAtOffsets, List.take_succ_cons, List.flatten_cons, List.get]
      rw [ih i j' hj' hch']
      have hik : i ≤ rest.get ⟨j', hj'⟩ := by
        have hp : List.Pairwise (· ≤ ·) (i :: rest) := List.chain'_iff_pairwise.mp hch'
        exact (List.pairwise_cons.mp hp).1 _ (rest.get_mem _ _)
      exact take_drop_chunk s prev i _ hpi hik

/-- C9: for every strictly ascending offset sequence, the positional splitter
returns the N+1 pieces cut at exactly those offsets -- the pieces concatenate
back to the source and the concatenation of the first j+1 pieces is precisely
the source prefix of length `offset j` -- whenever the last offset does not
exceed the source length, and signals out-of-bounds (`none`) when it does. -/
theorem split_n_times_cuts (s : List Char) (idx : List Nat)
    (hasc : List.Chain' (· < ·) idx) :
    ((∀ last, idx.getLast? = some last → last ≤ s.length) →
      ∃ ps, split_n_times s idx = some ps ∧
        ps.length = idx.length + 1 ∧
        ps.flatten = s ∧
        ∀ j (hj : j < idx.length), (ps.take (j + 1)).flatten = s.take (idx.get ⟨j, hj⟩)) ∧
    (∀ last, idx.getLast? = some last → s.length < last → split_n_times s idx = none) := by
  have hle : List.Chain' (· ≤ ·) (0 :: idx) := by
    rw [List.chain'_cons']
    exact ⟨fun y _ => Nat.zero_le y, hasc.imp fun a b h => Nat.le_of_lt h⟩
  constructor
  · intro hbound
    have hsome : split_n_times s idx = some (splitAtOffsets s 0 idx) := by
      unfold split_n_times
      cases hl : idx.getLast? with
      | none => rfl
      | some last => exact if_pos (hbound last hl)
    refine ⟨splitAtOffsets s 0 idx, hsome, splitAtOffsets_length s idx 0, ?_, ?_⟩
    · have h := splitAtOffsets_flatten s idx 0 hle
      simpa using h
    · intro j hj
      have h := splitAtOffsets_take_flatten s idx 0 j hj hle
      simpa using h
  · intro last hl hgt
    unfold split_n_times
    rw [hl]
    exact if_neg (by omega)

/-- Witness for C9 at concrete inputs: an in-bounds cut and an out-of-bounds
offset. -/
theorem split_n_times_cuts_witness :
    (∃ ps, split_n_times "0123456789ab".data [4, 8] = some ps ∧
      ps.length = 3 ∧
      ps.flatten = "0123456789ab".data ∧
      ∀ j (hj : j < 2), (ps.take (j + 1)).flatten =
        "0123456789ab".data.take (([4, 8] : List Nat).get ⟨j, hj⟩)) ∧
    split_n_times "0123456789ab".data [4, 13] = none := by
  constructor
  · have h := (split_n_times_cuts "0123456789ab".data [4, 8]
      (List.chain'_cons.mpr ⟨by omega, List.chain'_singleton 8⟩)).1
    exact h (by intro last hlast; cases hlast; decide)
  · exact (split_n_times_cuts "0123456789ab".data [4, 13]
      (List.chain'_cons.mpr ⟨by omega, List.chain'_singleton 13⟩)).2 13 rfl (by decide)

end Strtools
